import Mathlib

/-!
Verification of the speech-synthesis orchestration script
`frontend/scripts/llasa_mlx.py`.

The script is shallowly embedded over `List Char` (one entry per Unicode
code point, exactly as Python strings index by code point).  Python string
primitives used by the script (`str.replace`, `str.split` on a one-character
separator, `str.startswith`, `str.endswith`, slicing, `int(...)`) are
modelled as executable Lean functions below; the model covers the ASCII
repertoire faithfully (the only characters the script's literals and the
claims involve).  `int(...)` raising `ValueError` is modelled as `none`,
and a raised exception aborting the straight-line script is modelled by
propagating `none`.
-/

/-- `beginsWith s pre` models Python `s.startswith(pre)`:
`true` iff `pre` is an initial segment of `s`. -/
def beginsWith : List Char → List Char → Bool
  | _, [] => true
  | [], _ :: _ => false
  | c :: s, p :: ps => p == c && beginsWith s ps

/-- `endsWithL s suf` models Python `s.endswith(suf)`. -/
def endsWithL (s suf : List Char) : Bool :=
  beginsWith s.reverse suf.reverse

/-- Worker for `pyReplace`.  `skip` counts characters that were already
consumed by the pattern occurrence most recently replaced (Python's
`str.replace` scans left to right and continues after each non-overlapping
match). -/
def replaceAux (pat rep : List Char) : List Char → Nat → List Char
  | [], _ => []
  | _ :: rest, skip + 1 => replaceAux pat rep rest skip
  | c :: rest, 0 =>
    if beginsWith (c :: rest) pat then
      rep ++ replaceAux pat rep rest (pat.length - 1)
    else
      c :: replaceAux pat rep rest 0

/-- Python `s.replace(pat, rep)` for a nonempty pattern: every
non-overlapping occurrence, leftmost first, is replaced, and scanning
resumes after the replacement.  (Both call sites in the script use the
nonempty patterns `'<|SPEECH_GENERATION_START|>'` and `'><'`.) -/
def pyReplace (pat rep s : List Char) : List Char :=
  replaceAux pat rep s 0

/-- Python `s.split(sep)` for a one-character separator `sep` (the script
splits on `','`): splitting the empty string yields `[""]`, and `n`
separator occurrences yield `n + 1` fragments. -/
def pySplit (sep : Char) : List Char → List (List Char)
  | [] => [[]]
  | c :: rest =>
    if c == sep then
      [] :: pySplit sep rest
    else
      match pySplit sep rest with
      | [] => [[c]]
      | frag :: frags => (c :: frag) :: frags

/-- The whitespace characters Python's `int(str)` strips from either end
(ASCII repertoire). -/
def isPySpace (c : Char) : Bool :=
  c == ' ' || c == '\t' || c == '\n' || c == '\r' || c == '\x0b' || c == '\x0c'

/-- ASCII decimal digit test, as CPython's integer parser accepts. -/
def isDigitChar (c : Char) : Bool :=
  48 ≤ c.toNat && c.toNat ≤ 57

/-- Numeric value of an ASCII digit character. -/
def digitVal (c : Char) : Nat :=
  c.toNat - 48

/-- Digit-string body of CPython `int(str)` after the optional sign: a
nonempty run of digits in which a single `'_'` may stand between two
digits.  `acc` is the value of the digits already read. -/
def pyDigitsAux (acc : Nat) : List Char → Option Nat
  | [] => some acc
  | c :: rest =>
    if c == '_' then
      match rest with
      | [] => none
      | d :: rest2 =>
        if isDigitChar d then pyDigitsAux (10 * acc + digitVal d) rest2 else none
    else if isDigitChar c then
      pyDigitsAux (10 * acc + digitVal c) rest
    else
      none

/-- Unsigned digit string accepted by CPython `int(str)`: at least one
digit, underscores only between digits. -/
def pyDigits : List Char → Option Nat
  | [] => none
  | c :: rest => if isDigitChar c then pyDigitsAux (digitVal c) rest else none

/-- Python `s.strip()` restricted to the whitespace `int(str)` removes. -/
def pyStrip (s : List Char) : List Char :=
  ((s.dropWhile isPySpace).reverse.dropWhile isPySpace).reverse

/-- CPython `int(s)` for a string `s` over the ASCII repertoire: strip
whitespace, then an optional single leading `'+'` or `'-'`, then a
nonempty underscore-grouped digit run (`pyDigits [] = none`, so a bare
sign or the empty string fails).  `none` models the `ValueError` raise. -/
def pyInt (s : List Char) : Option Int :=
  if beginsWith (pyStrip s) ['+'] then
    (pyDigits (pyStrip s).tail).map Int.ofNat
  else if beginsWith (pyStrip s) ['-'] then
    (pyDigits (pyStrip s).tail).map fun n => -(n : Int)
  else
    (pyDigits (pyStrip s)).map Int.ofNat

/-- The guard of `extract_speech_ids` (`llasa_mlx.py` line 21):
`token_str.startswith('<|s_') and token_str.endswith('|>')`. -/
def tokenMatches (t : List Char) : Bool :=
  beginsWith t "<|s_".toList && endsWithL t "|>".toList

/-- The slice `token_str[4:-2]` (`llasa_mlx.py` line 22). -/
def tokenBody (t : List Char) : List Char :=
  ((t.drop 4).dropLast).dropLast

/-- `extract_speech_ids` (`llasa_mlx.py` lines 17-28).  On a matching
token the script runs `int(num_str)` (which may raise, modelled by `none`
propagating through `Option.bind`) and appends the value; any other
fragment is skipped and reported with
`print(f"Unexpected token: {token_str}")`, modelled by collecting the
skipped fragments, in order, in the second component. -/
def extract_speech_ids : List (List Char) → Option (List Int × List (List Char))
  | [] => some ([], [])
  | token_str :: rest =>
    if tokenMatches token_str then
      (pyInt (tokenBody token_str)).bind fun num =>
        (extract_speech_ids rest).map fun p => (num :: p.1, p.2)
    else
      (extract_speech_ids rest).map fun p => (p.1, token_str :: p.2)

/-- The generation-start sentinel literal of the script. -/
def SPEECH_GENERATION_START : List Char :=
  "<|SPEECH_GENERATION_START|>".toList

/-- Line 55: `outputs = outputs.replace('<|SPEECH_GENERATION_START|>', '')`. -/
def stripGenerationStart (outputs : List Char) : List Char :=
  pyReplace SPEECH_GENERATION_START [] outputs

/-- Line 63: `outputs = outputs.replace('><', '>,<')`. -/
def insertCommas (outputs : List Char) : List Char :=
  pyReplace "><".toList ">,<".toList outputs

/-- Line 66: `speech_tokens = outputs.split(',')`, applied to the output of
lines 55 and 63. -/
def speech_tokens (outputs : List Char) : List (List Char) :=
  pySplit ',' (insertCommas (stripGenerationStart outputs))

/-- Lines 55-71, the whole parsing pipeline: sentinel strip, `'><'`
comma insertion, split on `','`, then `extract_speech_ids`.  `none`
models an uncaught `ValueError` from `int(...)`. -/
def speech_ids_of (outputs : List Char) : Option (List Int × List (List Char)) :=
  extract_speech_ids (speech_tokens outputs)

/-- A torch tensor of integer codes, shape plus row-major data, as far as
the script observes it. -/
structure Tensor3 where
  shape : List Nat
  data : List Int
deriving DecidableEq, Repr

/-- Lines 75-81: `speech_tokens = [int(x) for x in speech_ids]` (identity
on values that are already `int`s) followed by
`torch.tensor(speech_tokens).cpu().unsqueeze(0).unsqueeze(0)`, the
argument handed to `Codec_model.decode_code`.  `none` means the script
raised before reaching the codec call. -/
def decode_code_input (outputs : List Char) : Option Tensor3 :=
  (speech_ids_of outputs).map fun p => { shape := [1, 1, p.1.length], data := p.1 }

/-- One `soundfile.write` call as the script performs it: target path,
shape of the sample array passed, and sample rate. -/
structure SfWrite where
  file : List Char
  dataShape : List Nat
  samplerate : Nat
deriving DecidableEq, Repr

/-- Line 84: `sf.write("gen.wav", gen_wav[0, 0, :].cpu().numpy(), 16000)`.
`gen_wav` has shape `[1, 1, n]`, so the slice `[0, 0, :]` drops the first
two axes and passes a one-dimensional (mono) array. -/
def sf_write_call (outputs : List Char) : Option SfWrite :=
  (decode_code_input outputs).map fun t =>
    { file := "gen.wav".toList, dataShape := t.shape.drop 2, samplerate := 16000 }

/-- Every write to persistent storage the script performs (its `print`
calls go to standard output, not to storage): the single `sf.write` of
line 84, reached only if nothing raised earlier. -/
def script_writes (outputs : List Char) : List SfWrite :=
  match sf_write_call outputs with
  | none => []
  | some w => [w]

/-- A role-tagged chat message, as in the `chat` list of lines 35-38. -/
structure ChatMessage where
  role : List Char
  content : List Char
deriving DecidableEq, Repr

/-- Line 33: `formatted_text = f"<|TEXT_UNDERSTANDING_START|>{input_text}<|TEXT_UNDERSTANDING_END|>"`. -/
def formatted_text (input_text : List Char) : List Char :=
  "<|TEXT_UNDERSTANDING_START|>".toList ++ input_text ++ "<|TEXT_UNDERSTANDING_END|>".toList

/-- Lines 35-38: the two-entry conversation prompt. -/
def chat (input_text : List Char) : List ChatMessage :=
  [ { role := "user".toList,
      content := "Convert the text to speech:".toList ++ formatted_text input_text },
    { role := "assistant".toList,
      content := "<|SPEECH_GENERATION_START|>".toList } ]

/-- Decimal digit string of a natural number, exactly as Python's
f-string `f"<|s_{n}|>"` renders a nonnegative `int` (used by the spec's
round-trip construction). -/
def natDigits (n : Nat) : List Char :=
  if n = 0 then ['0'] else (Nat.digits 10 n).reverse.map fun d => Char.ofNat (48 + d)

/-- The literal speech token `<|s_{n}|>` of the spec's round-trip
construction. -/
def speechTok (n : Nat) : List Char :=
  "<|s_".toList ++ natDigits n ++ "|>".toList

/-- Concatenation of a list of token strings. -/
def flatCat : List (List Char) → List Char
  | [] => []
  | t :: ts => t ++ flatCat ts

/-- The stream the spec's round-trip claim constructs:
`<|SPEECH_GENERATION_START|>` followed by the tokens of `L` in order. -/
def speechStream (L : List Nat) : List Char :=
  SPEECH_GENERATION_START ++ flatCat (L.map speechTok)

/-- `withCommas ts` is `','` before each token of `ts`, concatenated:
the tail shape `insertCommas` produces after the first bracketed token. -/
def withCommas : List (List Char) → List Char
  | [] => []
  | t :: ts => ',' :: (t ++ withCommas ts)

/-- Bracketed tokens joined with a single `','` at every junction: the
result of `insertCommas` on a concatenation of bracketed tokens. -/
def joinC : List (List Char) → List Char
  | [] => []
  | t :: ts => t ++ withCommas ts

/-- Modelled from the spec: the write the spec's sentence "Persist the
Waveform as a file at a caller-specified output path" promises when the
caller asks for path `p`.  The script offers no path parameter at all, so
running it for a caller ignores `p`.  To be compared with the source's
fixed `"gen.wav"` target. -/
def caller_requested_write (_p : List Char) (outputs : List Char) : Option SfWrite :=
  sf_write_call outputs

/-! ### Helper lemmas about the string primitives -/

theorem beginsWith_append (pre r : List Char) : beginsWith (pre ++ r) pre = true := by
  induction pre with
  | nil => cases r <;> rfl
  | cons c cs ih => simp [beginsWith, ih]

theorem mem_of_beginsWith {s pat : List Char} (h : beginsWith s pat = true) :
    ∀ c ∈ pat, c ∈ s := by
  induction pat generalizing s with
  | nil => simp
  | cons p ps ih =>
    cases s with
    | nil => simp [beginsWith] at h
    | cons c cs =>
      simp only [beginsWith, Bool.and_eq_true, beq_iff_eq] at h
      rcases h with ⟨rfl, h2⟩
      intro x hx
      rcases List.mem_cons.mp hx with rfl | hx
      · exact List.mem_cons_self _ _
      · exact List.mem_cons_of_mem _ (ih h2 x hx)

theorem beginsWith_cons_of_ne {p c : Char} {ps w : List Char} (h : p ≠ c) :
    beginsWith (c :: w) (p :: ps) = false := by
  simp [beginsWith, h]

theorem replaceAux_skip (pat rep : List Char) (u r : List Char) :
    replaceAux pat rep (u ++ r) u.length = replaceAux pat rep r 0 := by
  induction u with
  | nil => rfl
  | cons c cs ih => simpa [replaceAux] using ih

theorem replaceAux_head_notMem {p : Char} {u : List Char} (pt rep r : List Char)
    (h : p ∉ u) :
    replaceAux (p :: pt) rep (u ++ r) 0 = u ++ replaceAux (p :: pt) rep r 0 := by
  induction u with
  | nil => rfl
  | cons c cs ih =>
    have hpc : p ≠ c := fun he => h (he ▸ List.mem_cons_self c cs)
    have hcs : p ∉ cs := fun hm => h (List.mem_cons_of_mem _ hm)
    simp only [List.cons_append, replaceAux, beginsWith_cons_of_ne hpc,
      Bool.false_eq_true, if_false, List.append_eq, ih hcs]

theorem replaceAux_match {p : Char} (pt rep r : List Char) :
    replaceAux (p :: pt) rep ((p :: pt) ++ r) 0 =
      rep ++ replaceAux (p :: pt) rep r 0 := by
  have hb : beginsWith ((p :: pt) ++ r) (p :: pt) = true := beginsWith_append _ _
  have hlen : (p :: pt).length - 1 = pt.length := by simp
  simp only [replaceAux, List.cons_append, List.append_eq] at hb ⊢
  rw [if_pos hb, hlen, replaceAux_skip]

theorem replaceAux_id_of_notMem {x : Char} {pat s : List Char} (rep : List Char)
    (hx : x ∈ pat) (hs : x ∉ s) :
    replaceAux pat rep s 0 = s := by
  induction s with
  | nil => rfl
  | cons c cs ih =>
    have hb : beginsWith (c :: cs) pat = false := by
      cases hbw : beginsWith (c :: cs) pat
      · rfl
      · exact absurd (mem_of_beginsWith hbw x hx) hs
    have hcs : x ∉ cs := fun hm => hs (List.mem_cons_of_mem _ hm)
    simp only [replaceAux, hb, Bool.false_eq_true, if_false, ih hcs]

theorem mem_replaceAux {c : Char} {pat rep s : List Char} {k : Nat}
    (h : c ∈ replaceAux pat rep s k) : c ∈ s ∨ c ∈ rep := by
  induction s generalizing k with
  | nil => simp [replaceAux] at h
  | cons x xs ih =>
    cases k with
    | succ k0 =>
      rcases ih (k := k0) h with hm | hm
      · exact Or.inl (List.mem_cons_of_mem _ hm)
      · exact Or.inr hm
    | zero =>
      by_cases hb : beginsWith (x :: xs) pat = true
      · rw [replaceAux, if_pos hb] at h
        rcases List.mem_append.mp h with hm | hm
        · exact Or.inr hm
        · rcases ih hm with hm2 | hm2
          · exact Or.inl (List.mem_cons_of_mem _ hm2)
          · exact Or.inr hm2
      · rw [replaceAux, if_neg hb] at h
        rcases List.mem_cons.mp h with rfl | hm
        · exact Or.inl (List.mem_cons_self _ _)
        · rcases ih hm with hm2 | hm2
          · exact Or.inl (List.mem_cons_of_mem _ hm2)
          · exact Or.inr hm2

theorem pySplit_ne_nil (sep : Char) (s : List Char) : pySplit sep s ≠ [] := by
  induction s with
  | nil => simp [pySplit]
  | cons c cs ih =>
    by_cases hc : (c == sep) = true
    · simp [pySplit, hc]
    · rw [pySplit, if_neg hc]
      cases h : pySplit sep cs with
      | nil => simp
      | cons frag frags => simp

theorem pySplit_append_notMem {t : List Char} (sep : Char) (r : List Char)
    (h : sep ∉ t) :
    pySplit sep (t ++ r) = (pySplit sep r).modifyHead (t ++ ·) := by
  induction t with
  | nil =>
    cases hr : pySplit sep r with
    | nil => exact absurd hr (pySplit_ne_nil sep r)
    | cons frag frags => simp [hr]
  | cons c cs ih =>
    have hcne : (c == sep) = false := by
      simp only [beq_eq_false_iff_ne, ne_eq]
      exact fun he => h (he ▸ List.mem_cons_self c cs)
    have hcs : sep ∉ cs := fun hm => h (List.mem_cons_of_mem _ hm)
    rw [List.cons_append, pySplit, if_neg (by simp [hcne]), ih hcs]
    cases hr : pySplit sep r with
    | nil => exact absurd hr (pySplit_ne_nil sep r)
    | cons frag frags => simp

theorem mem_mem_pySplit {c : Char} {t s : List Char} {sep : Char}
    (ht : t ∈ pySplit sep s) (hc : c ∈ t) : c ∈ s := by
  induction s generalizing t with
  | nil =>
    simp only [pySplit, List.mem_singleton] at ht
    subst ht; simp at hc
  | cons x xs ih =>
    by_cases hx : (x == sep) = true
    · rw [pySplit, if_pos hx] at ht
      rcases List.mem_cons.mp ht with rfl | hm
      · simp at hc
      · exact List.mem_cons_of_mem _ (ih hm hc)
    · rw [pySplit, if_neg hx] at ht
      cases hr : pySplit sep xs with
      | nil => exact absurd hr (pySplit_ne_nil sep xs)
      | cons frag frags =>
        rw [hr] at ht
        rcases List.mem_cons.mp ht with rfl | hm
        · rcases List.mem_cons.mp hc with rfl | hm2
          · exact List.mem_cons_self _ _
          · exact List.mem_cons_of_mem _ (ih (hr ▸ List.mem_cons_self _ _) hm2)
        · exact List.mem_cons_of_mem _ (ih (hr ▸ List.mem_cons_of_mem _ hm) hc)

/-! ### Digit strings and `pyInt` -/

theorem digitChar_facts {c : Char} (h : isDigitChar c = true) :
    isPySpace c = false ∧ c ≠ '_' ∧ c ≠ '+' ∧ c ≠ '-' ∧
      c ≠ '<' ∧ c ≠ '>' ∧ c ≠ ',' ∧ c ≠ 'P' := by
  simp only [isDigitChar, Bool.and_eq_true, decide_eq_true_eq] at h
  obtain ⟨h1, h2⟩ := h
  have hsp : isPySpace c = false := by
    cases hc : isPySpace c
    · rfl
    · simp only [isPySpace, Bool.or_eq_true, beq_iff_eq] at hc
      rcases hc with ((((rfl | rfl) | rfl) | rfl) | rfl) | rfl <;> revert h1 <;> decide
  refine ⟨hsp, ?_, ?_, ?_, ?_, ?_, ?_, ?_⟩ <;> rintro rfl
  · revert h2; decide
  · revert h1; decide
  · revert h1; decide
  · revert h2; decide
  · revert h2; decide
  · revert h1; decide
  · revert h2; decide

theorem pyDigitsAux_cons_digit {c : Char} (hund : (c == '_') = false)
    (hc : isDigitChar c = true) (acc : Nat) (rest : List Char) :
    pyDigitsAux acc (c :: rest) = pyDigitsAux (10 * acc + digitVal c) rest := by
  rw [pyDigitsAux.eq_def]
  simp only [hund, Bool.false_eq_true, if_false, hc, if_true]

theorem pyDigitsAux_all_digits {cs : List Char}
    (h : ∀ c ∈ cs, isDigitChar c = true) (acc : Nat) :
    pyDigitsAux acc cs = some (cs.foldl (fun a c => 10 * a + digitVal c) acc) := by
  induction cs generalizing acc with
  | nil => rfl
  | cons c rest ih =>
    have hc : isDigitChar c = true := h c (List.mem_cons_self _ _)
    have hund : (c == '_') = false := by
      simp only [beq_eq_false_iff_ne, ne_eq]
      exact (digitChar_facts hc).2.1
    rw [pyDigitsAux_cons_digit hund hc, List.foldl_cons]
    exact ih (fun x hx => h x (List.mem_cons_of_mem _ hx)) _

theorem pyDigits_all_digits {cs : List Char} (hne : cs ≠ [])
    (h : ∀ c ∈ cs, isDigitChar c = true) :
    pyDigits cs = some (cs.foldl (fun a c => 10 * a + digitVal c) 0) := by
  cases cs with
  | nil => exact absurd rfl hne
  | cons c rest =>
    have hc : isDigitChar c = true := h c (List.mem_cons_self _ _)
    rw [pyDigits, if_pos hc,
      pyDigitsAux_all_digits (fun x hx => h x (List.mem_cons_of_mem _ hx))]
    simp [List.foldl_cons, digitVal]

theorem dchr_digit {d : Nat} (hd : d < 10) :
    isDigitChar (Char.ofNat (48 + d)) = true ∧ digitVal (Char.ofNat (48 + d)) = d := by
  interval_cases d <;> exact ⟨by decide, by decide⟩

theorem natDigits_all_digits (n : Nat) : ∀ c ∈ natDigits n, isDigitChar c = true := by
  intro c hc
  rw [natDigits] at hc
  by_cases h0 : n = 0
  · rw [if_pos h0] at hc
    simp only [List.mem_singleton] at hc
    subst hc; decide
  · rw [if_neg h0] at hc
    simp only [List.mem_map, List.mem_reverse] at hc
    obtain ⟨d, hd, rfl⟩ := hc
    exact (dchr_digit (Nat.digits_lt_base (by norm_num) hd)).1

theorem natDigits_ne_nil (n : Nat) : natDigits n ≠ [] := by
  rw [natDigits]
  by_cases h0 : n = 0
  · simp [h0]
  · rw [if_neg h0]
    simp [List.map_eq_nil_iff, Nat.digits_ne_nil_iff_ne_zero, h0]

theorem foldl_digits_reverse {l : List Nat} (h : ∀ d ∈ l, d < 10) (acc : Nat) :
    ((l.reverse.map fun d => Char.ofNat (48 + d)).foldl
        (fun a c => 10 * a + digitVal c) acc)
      = acc * 10 ^ l.length + Nat.ofDigits 10 l := by
  induction l generalizing acc with
  | nil => simp [Nat.ofDigits_nil]
  | cons d l' ih =>
    have hd : d < 10 := h d (List.mem_cons_self _ _)
    have hl' : ∀ x ∈ l', x < 10 := fun x hx => h x (List.mem_cons_of_mem _ hx)
    rw [List.reverse_cons, List.map_append, List.foldl_append, ih hl']
    simp only [List.map_cons, List.map_nil, List.foldl_cons, List.foldl_nil,
      (dchr_digit hd).2, Nat.ofDigits_cons, List.length_cons, Nat.cast_id]
    ring

theorem foldl_natDigits (n : Nat) :
    (natDigits n).foldl (fun a c => 10 * a + digitVal c) 0 = n := by
  rw [natDigits]
  by_cases h0 : n = 0
  · subst h0; decide
  · rw [if_neg h0,
      foldl_digits_reverse (fun d hd => Nat.digits_lt_base (by norm_num) hd)]
    simp [Nat.ofDigits_digits]

theorem dropWhile_eq_self_of {p : Char → Bool} {s : List Char}
    (h : ∀ c ∈ s, p c = false) : s.dropWhile p = s := by
  cases s with
  | nil => rfl
  | cons c cs =>
    rw [List.dropWhile_cons, if_neg (by simp [h c (List.mem_cons_self _ _)])]

theorem pyStrip_no_space {s : List Char} (h : ∀ c ∈ s, isPySpace c = false) :
    pyStrip s = s := by
  rw [pyStrip, dropWhile_eq_self_of h,
    dropWhile_eq_self_of (fun c hc => h c (List.mem_reverse.mp hc)),
    List.reverse_reverse]

theorem pyInt_natDigits (n : Nat) : pyInt (natDigits n) = some (n : Int) := by
  have hall := natDigits_all_digits n
  have hstrip : pyStrip (natDigits n) = natDigits n :=
    pyStrip_no_space fun c hc => (digitChar_facts (hall c hc)).1
  obtain ⟨c, cs, hnd⟩ := List.exists_cons_of_ne_nil (natDigits_ne_nil n)
  have hmem : ∀ x ∈ c :: cs, isDigitChar x = true := fun x hx => hall x (hnd ▸ hx)
  have hc : isDigitChar c = true := hmem c (List.mem_cons_self _ _)
  obtain ⟨-, -, hplus, hminus, -, -, -, -⟩ := digitChar_facts hc
  have hfold : (c :: cs).foldl (fun a x => 10 * a + digitVal x) 0 = n := by
    rw [← hnd]; exact foldl_natDigits n
  rw [pyInt, hstrip, hnd, beginsWith_cons_of_ne (Ne.symm hplus),
    beginsWith_cons_of_ne (Ne.symm hminus), if_neg (by simp), if_neg (by simp),
    pyDigits_all_digits (List.cons_ne_nil c cs) hmem, hfold]
  rfl

/-! ### Shape of speech tokens and of token concatenations -/

theorem replaceAux_cons_no_match {c : Char} {pat : List Char} (rep s : List Char)
    (h : beginsWith (c :: s) pat = false) :
    replaceAux pat rep (c :: s) 0 = c :: replaceAux pat rep s 0 := by
  rw [replaceAux.eq_def]
  simp only [h, Bool.false_eq_true, if_false]

theorem pySplit_cons_sep (sep : Char) (s : List Char) :
    pySplit sep (sep :: s) = [] :: pySplit sep s := by
  rw [pySplit.eq_def]
  simp

theorem tokenMatches_speechTok (n : Nat) : tokenMatches (speechTok n) = true := by
  have h1 : beginsWith (speechTok n) "<|s_".toList = true := by
    rw [speechTok, List.append_assoc]
    exact beginsWith_append _ _
  have h2 : endsWithL (speechTok n) "|>".toList = true := by
    rw [endsWithL, speechTok]
    rw [show ("<|s_".toList ++ natDigits n ++ "|>".toList).reverse =
        "|>".toList.reverse ++ ((natDigits n).reverse ++ "<|s_".toList.reverse) from by
      simp]
    exact beginsWith_append _ _
  rw [tokenMatches, h1, h2]
  rfl

theorem tokenBody_speechTok (n : Nat) : tokenBody (speechTok n) = natDigits n := by
  have hshape : speechTok n =
      '<' :: '|' :: 's' :: '_' :: ((natDigits n ++ ['|']) ++ ['>']) := by
    rw [speechTok]; simp
  rw [hshape, tokenBody]
  rw [show ('<' :: '|' :: 's' :: '_' :: ((natDigits n ++ ['|']) ++ ['>'])).drop 4 =
      (natDigits n ++ ['|']) ++ ['>'] from rfl]
  rw [List.dropLast_concat, List.dropLast_concat]

theorem speechTok_chars {c : Char} {n : Nat} (h : c ∈ speechTok n) :
    c = '<' ∨ c = '|' ∨ c = 's' ∨ c = '_' ∨ c = '>' ∨ isDigitChar c = true := by
  rw [speechTok] at h
  rcases List.mem_append.mp h with h1 | h2
  · rcases List.mem_append.mp h1 with h1a | h1b
    · simp only [show "<|s_".toList = ['<', '|', 's', '_'] from rfl,
        List.mem_cons, List.mem_singleton] at h1a
      tauto
    · exact Or.inr (Or.inr (Or.inr (Or.inr (Or.inr (natDigits_all_digits n c h1b)))))
  · simp only [show "|>".toList = ['|', '>'] from rfl,
      List.mem_cons, List.mem_singleton] at h2
    tauto

theorem speechTok_shape (n : Nat) :
    ∃ v, speechTok n = '<' :: (v ++ ['>']) ∧ ∀ c ∈ v, c ≠ '>' := by
  refine ⟨'|' :: 's' :: '_' :: (natDigits n ++ ['|']), by rw [speechTok]; simp, ?_⟩
  intro c hc
  simp only [List.mem_cons, List.mem_append, List.mem_singleton,
    List.not_mem_nil, or_false] at hc
  rcases hc with rfl | rfl | rfl | hc | rfl
  · decide
  · decide
  · decide
  · exact (digitChar_facts (natDigits_all_digits n c hc)).2.2.2.2.2.1
  · decide

theorem comma_notMem_speechTok (n : Nat) : ',' ∉ speechTok n := by
  intro hmem
  rcases speechTok_chars hmem with h | h | h | h | h | h
  · exact absurd h (by decide)
  · exact absurd h (by decide)
  · exact absurd h (by decide)
  · exact absurd h (by decide)
  · exact absurd h (by decide)
  · exact absurd rfl (digitChar_facts h).2.2.2.2.2.2.1

theorem upperP_notMem_speechTok (n : Nat) : 'P' ∉ speechTok n := by
  intro hmem
  rcases speechTok_chars hmem with h | h | h | h | h | h
  · exact absurd h (by decide)
  · exact absurd h (by decide)
  · exact absurd h (by decide)
  · exact absurd h (by decide)
  · exact absurd h (by decide)
  · exact absurd rfl (digitChar_facts h).2.2.2.2.2.2.2

theorem char_notMem_flatCat {c : Char} {ts : List (List Char)}
    (h : ∀ t ∈ ts, c ∉ t) : c ∉ flatCat ts := by
  induction ts with
  | nil => simp [flatCat]
  | cons t ts' ih =>
    rw [flatCat]
    intro hmem
    rcases List.mem_append.mp hmem with hm | hm
    · exact h t (List.mem_cons_self _ _) hm
    · exact ih (fun x hx => h x (List.mem_cons_of_mem _ hx)) hm

theorem replaceAux_bracket_tokens (ts : List (List Char)) :
    ∀ u : List Char, (∀ c ∈ u, c ≠ '>') →
      (∀ t ∈ ts, ∃ v, t = '<' :: (v ++ ['>']) ∧ ∀ c ∈ v, c ≠ '>') →
      replaceAux ['>', '<'] ['>', ',', '<'] ((u ++ ['>']) ++ flatCat ts) 0 =
        (u ++ ['>']) ++ withCommas ts := by
  induction ts with
  | nil =>
    intro u hu _
    rw [flatCat, List.append_nil, withCommas, List.append_nil]
    rw [replaceAux_head_notMem ['<'] ['>', ',', '<'] ['>']
      (fun hm => hu '>' hm rfl)]
    rfl
  | cons t ts' ih =>
    intro u hu hts
    obtain ⟨v, rfl, hv⟩ := hts t (List.mem_cons_self _ _)
    rw [flatCat]
    rw [show (u ++ ['>']) ++ (('<' :: (v ++ ['>'])) ++ flatCat ts') =
        u ++ (['>', '<'] ++ ((v ++ ['>']) ++ flatCat ts')) from by simp]
    rw [replaceAux_head_notMem ['<'] ['>', ',', '<'] _ (fun hm => hu '>' hm rfl),
      replaceAux_match,
      ih v hv (fun x hx => hts x (List.mem_cons_of_mem _ hx))]
    rw [withCommas]
    simp

theorem insertCommas_tokens {ts : List (List Char)} (hne : ts ≠ [])
    (hts : ∀ t ∈ ts, ∃ v, t = '<' :: (v ++ ['>']) ∧ ∀ c ∈ v, c ≠ '>') :
    insertCommas (flatCat ts) = joinC ts := by
  cases ts with
  | nil => exact absurd rfl hne
  | cons t ts' =>
    obtain ⟨v, rfl, hv⟩ := hts t (List.mem_cons_self _ _)
    rw [insertCommas, pyReplace, flatCat, joinC]
    rw [show "><".toList = ['>', '<'] from rfl, show ">,<".toList = ['>', ',', '<'] from rfl]
    rw [show ('<' :: (v ++ ['>'])) ++ flatCat ts' =
        '<' :: ((v ++ ['>']) ++ flatCat ts') from by simp]
    rw [replaceAux_cons_no_match _ _ (beginsWith_cons_of_ne (by decide)),
      replaceAux_bracket_tokens ts' v hv
        (fun x hx => hts x (List.mem_cons_of_mem _ hx))]
    simp

theorem pySplit_joinC (ts : List (List Char)) :
    ∀ t : List Char, ',' ∉ t → (∀ x ∈ ts, ',' ∉ x) →
      pySplit ',' (joinC (t :: ts)) = t :: ts := by
  induction ts with
  | nil =>
    intro t ht _
    rw [joinC, withCommas, List.append_nil, ← List.append_nil t,
      pySplit_append_notMem ',' [] ht]
    simp [pySplit]
  | cons t2 ts' ih =>
    intro t ht hts
    rw [joinC, withCommas, pySplit_append_notMem ',' _ ht, pySplit_cons_sep,
      show t2 ++ withCommas ts' = joinC (t2 :: ts') from rfl,
      ih t2 (hts t2 (List.mem_cons_self _ _))
        (fun x hx => hts x (List.mem_cons_of_mem _ hx))]
    simp

/-! ### Stepping `extract_speech_ids` -/

theorem extract_cons_match {t : List Char} {num : Int} (hm : tokenMatches t = true)
    (hint : pyInt (tokenBody t) = some num) (rest : List (List Char)) :
    extract_speech_ids (t :: rest) =
      (extract_speech_ids rest).map fun p => (num :: p.1, p.2) := by
  rw [extract_speech_ids.eq_def]
  simp only [hm, if_true, hint, Option.some_bind]

theorem extract_cons_raise {t : List Char} (hm : tokenMatches t = true)
    (hint : pyInt (tokenBody t) = none) (rest : List (List Char)) :
    extract_speech_ids (t :: rest) = none := by
  rw [extract_speech_ids.eq_def]
  simp only [hm, if_true, hint, Option.none_bind]

theorem extract_cons_skip {t : List Char} (hm : tokenMatches t = false)
    (rest : List (List Char)) :
    extract_speech_ids (t :: rest) =
      (extract_speech_ids rest).map fun p => (p.1, t :: p.2) := by
  rw [extract_speech_ids.eq_def]
  simp only [hm, Bool.false_eq_true, if_false]

theorem extract_speechToks (L : List Nat) :
    extract_speech_ids (L.map speechTok) =
      some (L.map Int.ofNat, []) := by
  induction L with
  | nil => rfl
  | cons n L' ih =>
    rw [List.map_cons,
      extract_cons_match (tokenMatches_speechTok n)
        (by rw [tokenBody_speechTok]; exact pyInt_natDigits n),
      ih, Option.map_some']
    rfl

/-! ### The pipeline on well-formed streams -/

theorem stripGenerationStart_of_noP {s : List Char} (h : 'P' ∉ s) :
    stripGenerationStart s = s :=
  replaceAux_id_of_notMem [] (by decide) h

theorem stripGenerationStart_leading (r : List Char) :
    stripGenerationStart (SPEECH_GENERATION_START ++ r) =
      stripGenerationStart r := by
  rw [stripGenerationStart, pyReplace,
    show SPEECH_GENERATION_START = '<' :: "|SPEECH_GENERATION_START|>".toList from rfl,
    replaceAux_match, List.nil_append]
  rfl

theorem speech_tokens_speechStream (L : List Nat) (hL : L ≠ []) :
    speech_tokens (speechStream L) = L.map speechTok := by
  have hnoP : 'P' ∉ flatCat (L.map speechTok) :=
    char_notMem_flatCat fun t ht => by
      obtain ⟨n, -, rfl⟩ := List.mem_map.mp ht
      exact upperP_notMem_speechTok n
  have hshapes : ∀ t ∈ L.map speechTok,
      ∃ v, t = '<' :: (v ++ ['>']) ∧ ∀ c ∈ v, c ≠ '>' := fun t ht => by
    obtain ⟨n, -, rfl⟩ := List.mem_map.mp ht
    exact speechTok_shape n
  have hne : L.map speechTok ≠ [] := by
    simp [List.map_eq_nil_iff, hL]
  rw [speech_tokens, speechStream, stripGenerationStart_leading,
    stripGenerationStart_of_noP hnoP, insertCommas_tokens hne hshapes]
  cases L with
  | nil => exact absurd rfl hL
  | cons n L' =>
    rw [List.map_cons]
    exact pySplit_joinC (L'.map speechTok) (speechTok n)
      (comma_notMem_speechTok n)
      (fun x hx => by
        obtain ⟨m, -, rfl⟩ := List.mem_map.mp hx
        exact comma_notMem_speechTok m)

/-! ### Characters reaching `pyInt`: nonnegativity and totality -/

theorem dropWhile_subset_self {p : Char → Bool} (l : List Char) :
    l.dropWhile p ⊆ l := by
  induction l with
  | nil => simp
  | cons c cs ih =>
    rw [List.dropWhile_cons]
    by_cases hp : p c = true
    · rw [if_pos hp]
      exact fun x hx => List.mem_cons_of_mem _ (ih hx)
    · rw [if_neg hp]
      exact List.Subset.refl _

theorem pyStrip_subset (s : List Char) : pyStrip s ⊆ s := by
  intro c hc
  rw [pyStrip] at hc
  rw [List.mem_reverse] at hc
  have h1 := dropWhile_subset_self (s.dropWhile isPySpace).reverse hc
  rw [List.mem_reverse] at h1
  exact dropWhile_subset_self s h1

theorem tokenBody_subset (t : List Char) : tokenBody t ⊆ t := by
  intro c hc
  rw [tokenBody] at hc
  exact List.drop_subset 4 t (List.dropLast_subset _ (List.dropLast_subset _ hc))

theorem pyInt_nonneg {s : List Char} {z : Int} (hminus : '-' ∉ s)
    (hz : pyInt s = some z) : 0 ≤ z := by
  rw [pyInt] at hz
  by_cases h2 : beginsWith (pyStrip s) ['-'] = true
  · exact absurd (pyStrip_subset s (mem_of_beginsWith h2 '-' (List.mem_singleton_self _)))
      hminus
  · by_cases h1 : beginsWith (pyStrip s) ['+'] = true
    · rw [if_pos h1] at hz
      obtain ⟨m, -, rfl⟩ := Option.map_eq_some'.mp hz
      exact Int.natCast_nonneg m
    · rw [if_neg h1, if_neg h2] at hz
      obtain ⟨m, -, rfl⟩ := Option.map_eq_some'.mp hz
      exact Int.natCast_nonneg m

theorem extract_nonneg {toks : List (List Char)} {ids : List Int}
    {unexp : List (List Char)} (hm : ∀ t ∈ toks, '-' ∉ t)
    (h : extract_speech_ids toks = some (ids, unexp)) :
    ∀ i ∈ ids, 0 ≤ i := by
  induction toks generalizing ids unexp with
  | nil =>
    rw [extract_speech_ids] at h
    obtain ⟨rfl, -⟩ : ids = [] ∧ unexp = [] := by
      simpa [Prod.ext_iff] using h
    simp
  | cons t rest ih =>
    have hrestm : ∀ x ∈ rest, '-' ∉ x := fun x hx => hm x (List.mem_cons_of_mem _ hx)
    by_cases htm : tokenMatches t = true
    · cases hpy : pyInt (tokenBody t) with
      | none => rw [extract_cons_raise htm hpy] at h; exact absurd h (by simp)
      | some num =>
        rw [extract_cons_match htm hpy] at h
        obtain ⟨⟨ids', unexp'⟩, hrec, heq⟩ := Option.map_eq_some'.mp h
        have h1 : num :: ids' = ids := congrArg Prod.fst heq
        subst h1
        intro i hi
        rcases List.mem_cons.mp hi with rfl | hi
        · exact pyInt_nonneg
            (fun hmem => hm t (List.mem_cons_self _ _) (tokenBody_subset t hmem)) hpy
        · exact ih hrestm hrec i hi
    · rw [extract_cons_skip (by simpa using htm)] at h
      obtain ⟨⟨ids', unexp'⟩, hrec, heq⟩ := Option.map_eq_some'.mp h
      have h1 : ids' = ids := congrArg Prod.fst heq
      subst h1
      exact ih hrestm hrec

theorem mem_stripGenerationStart {c : Char} {s : List Char}
    (h : c ∈ stripGenerationStart s) : c ∈ s := by
  rcases mem_replaceAux h with hm | hm
  · exact hm
  · simp at hm

theorem mem_insertCommas {c : Char} {s : List Char} (h : c ∈ insertCommas s) :
    c ∈ s ∨ c ∈ ['>', ',', '<'] := by
  rcases mem_replaceAux h with hm | hm
  · exact Or.inl hm
  · exact Or.inr hm

theorem speech_tokens_minus_free {s t : List Char} (hs : '-' ∉ s)
    (ht : t ∈ speech_tokens s) : '-' ∉ t := by
  intro hmem
  have h1 : '-' ∈ insertCommas (stripGenerationStart s) :=
    mem_mem_pySplit ht hmem
  rcases mem_insertCommas h1 with h2 | h2
  · exact hs (mem_stripGenerationStart h2)
  · simp at h2

theorem extract_total {toks : List (List Char)}
    (h : ∀ t ∈ toks, tokenMatches t = true → pyInt (tokenBody t) ≠ none) :
    ∃ ids, extract_speech_ids toks =
      some (ids, toks.filter fun t => !tokenMatches t) := by
  induction toks with
  | nil => exact ⟨[], rfl⟩
  | cons t rest ih =>
    obtain ⟨ids, hrec⟩ := ih fun x hx => h x (List.mem_cons_of_mem _ hx)
    by_cases htm : tokenMatches t = true
    · obtain ⟨num, hnum⟩ :=
        Option.ne_none_iff_exists'.mp (h t (List.mem_cons_self _ _) htm)
      refine ⟨num :: ids, ?_⟩
      rw [extract_cons_match htm hnum, hrec, Option.map_some', List.filter_cons]
      simp [htm]
    · have htm' : tokenMatches t = false := by simpa using htm
      refine ⟨ids, ?_⟩
      rw [extract_cons_skip htm', hrec, Option.map_some', List.filter_cons]
      simp [htm']

/-! ### The claims -/

/-- C1 counterexample: the claim says the parsing pipeline terminates
normally on every input and that every fragment not matching
`<|s_<digits>|>` is merely skipped.  The fragment `<|s_x|>` passes the
code's `startswith`/`endswith` guard but has a non-digit interior, so
`int('x')` raises and the pipeline aborts (`none`) instead of returning
a list. -/
theorem claim_C1_counterexample : speech_ids_of "<|s_x|>".toList = none := by decide

/-- C1 (amended): every fragment of the `'><'` split that does not both
start with `'<|s_'` and end with `'|>'` is skipped and recorded as an
unexpected token, without raising; the pipeline returns normally on every
input whose guard-matching fragments all have `int`-parsable interiors.
(A guard-matching fragment with an unparsable interior makes `int` raise,
so the unconditional claim fails — see the counterexample.) -/
theorem claim_C1 (s : List Char)
    (h : ∀ t ∈ speech_tokens s, tokenMatches t = true → pyInt (tokenBody t) ≠ none) :
    ∃ ids, speech_ids_of s =
      some (ids, (speech_tokens s).filter fun t => !tokenMatches t) :=
  extract_total h

/-- C1 witness: on `"<|s_5|><|junk|>"` the hypothesis holds and the
pipeline returns with `<|junk|>` recorded as the only unexpected token. -/
theorem claim_C1_witness :
    ∃ ids, speech_ids_of "<|s_5|><|junk|>".toList =
      some (ids, (speech_tokens "<|s_5|><|junk|>".toList).filter
        fun t => !tokenMatches t) :=
  claim_C1 "<|s_5|><|junk|>".toList (by decide)

/-- C2 counterexample: the claim says an empty parsed sequence is never
handed to the codec.  On the stream holding only the end sentinel the
parser returns zero ids and the script still reaches `decode_code`,
handing it the empty `[1,1,0]` tensor — there is no emptiness check. -/
theorem claim_C2_counterexample :
    decode_code_input "<|SPEECH_GENERATION_END|>".toList =
      some { shape := [1, 1, 0], data := [] } := by decide

/-- C2 (amended): whatever id list parsing returns — including the empty
one — is wrapped in a `[1, 1, n]` tensor and handed to the codec's
`decode_code`; the orchestrator performs no empty-result check and never
fails between parsing and the codec call. -/
theorem claim_C2 (s : List Char) (ids : List Int) (unexp : List (List Char))
    (h : speech_ids_of s = some (ids, unexp)) :
    decode_code_input s = some { shape := [1, 1, ids.length], data := ids } := by
  rw [decode_code_input, h, Option.map_some']

/-- C2 witness: the end-sentinel stream parses to zero ids and the codec
is nevertheless invoked on the empty tensor. -/
theorem claim_C2_witness :
    decode_code_input "<|SPEECH_GENERATION_END|>".toList =
      some { shape := [1, 1, 0], data := [] } :=
  claim_C2 "<|SPEECH_GENERATION_END|>".toList []
    ["<|SPEECH_GENERATION_END|>".toList] (by decide)

/-- C3: round-trip — for every list `L` of natural numbers, the stream
`<|SPEECH_GENERATION_START|>` followed by `<|s_{n}|>` for each `n ∈ L`
parses back to exactly `L`, in order. -/
theorem claim_C3 (L : List Nat) :
    Option.map Prod.fst (speech_ids_of (speechStream L)) =
      some (L.map Int.ofNat) := by
  by_cases hL : L = []
  · subst hL; decide
  · rw [speech_ids_of, speech_tokens_speechStream L hL, extract_speechToks]
    rfl

/-- C4 counterexample: the claim says the sentinel is removed only when it
sits at the start of the stream, and occurrences elsewhere are left in
place for the unrecognized-token rule.  `str.replace` removes every
occurrence: on `"a<|SPEECH_GENERATION_START|>"` the non-leading sentinel
is deleted and only `"a"` remains. -/
theorem claim_C4_counterexample :
    stripGenerationStart "a<|SPEECH_GENERATION_START|>".toList ≠
        "a<|SPEECH_GENERATION_START|>".toList ∧
      stripGenerationStart "a<|SPEECH_GENERATION_START|>".toList = ['a'] :=
  ⟨by decide, by decide⟩

/-- C4 (amended): the sentinel-removal step deletes every leftmost
non-overlapping occurrence of `<|SPEECH_GENERATION_START|>` anywhere in
the stream, not only a leading one: an occurrence after any `'<'`-free
text is removed, and removal continues in the remainder. -/
theorem claim_C4 (u r : List Char) (h : '<' ∉ u) :
    stripGenerationStart (u ++ (SPEECH_GENERATION_START ++ r)) =
      u ++ stripGenerationStart r := by
  rw [stripGenerationStart, pyReplace,
    show SPEECH_GENERATION_START = '<' :: "|SPEECH_GENERATION_START|>".toList from rfl,
    replaceAux_head_notMem _ _ _ h, replaceAux_match, List.nil_append]
  rfl

/-- C4 witness: `"a" ++ sentinel` loses its (non-leading) sentinel. -/
theorem claim_C4_witness :
    stripGenerationStart (['a'] ++ (SPEECH_GENERATION_START ++ [])) =
      ['a'] ++ stripGenerationStart [] :=
  claim_C4 ['a'] [] (by decide)

/-- C5: the concrete stream of the spec parses to `[25105, 8984, 25105]`
(the end sentinel being reported as the only unexpected token). -/
theorem claim_C5 :
    speech_ids_of
      "<|SPEECH_GENERATION_START|><|s_25105|><|s_8984|><|s_25105|><|SPEECH_GENERATION_END|>".toList
      = some ([25105, 8984, 25105], ["<|SPEECH_GENERATION_END|>".toList]) := by
  decide

/-- C6: for every text input `t` the prompt builder yields exactly two
messages: a user message wrapping `t` in the fixed instruction and
text-understanding markers, then an assistant message whose content is
exactly the generation-start sentinel. -/
theorem claim_C6 (t : List Char) :
    chat t =
      [ { role := "user".toList,
          content :=
            "Convert the text to speech:<|TEXT_UNDERSTANDING_START|>".toList ++ t ++
              "<|TEXT_UNDERSTANDING_END|>".toList },
        { role := "assistant".toList,
          content := "<|SPEECH_GENERATION_START|>".toList } ] := by
  have hcat : "Convert the text to speech:".toList ++
      "<|TEXT_UNDERSTANDING_START|>".toList =
      "Convert the text to speech:<|TEXT_UNDERSTANDING_START|>".toList := by decide
  simp only [chat, formatted_text, ← List.append_assoc, hcat]

/-- C7: a stream of a valid token, then the unrecognized `<|unknown|>`,
then a valid token parses to exactly the two valid ids in order, with the
unrecognized token reported as ignored. -/
theorem claim_C7 (a b : Nat) :
    speech_ids_of (speechTok a ++ ("<|unknown|>".toList ++ speechTok b)) =
      some ([Int.ofNat a, Int.ofNat b], ["<|unknown|>".toList]) := by
  have hnoP : 'P' ∉ speechTok a ++ ("<|unknown|>".toList ++ speechTok b) := by
    intro hm
    rcases List.mem_append.mp hm with h | h
    · exact upperP_notMem_speechTok a h
    rcases List.mem_append.mp h with h | h
    · revert h; decide
    · exact upperP_notMem_speechTok b h
  have hstream : speechTok a ++ ("<|unknown|>".toList ++ speechTok b) =
      flatCat [speechTok a, "<|unknown|>".toList, speechTok b] := by
    simp [flatCat]
  have hshapes : ∀ t ∈ [speechTok a, "<|unknown|>".toList, speechTok b],
      ∃ v, t = '<' :: (v ++ ['>']) ∧ ∀ c ∈ v, c ≠ '>' := by
    intro t ht
    rcases List.mem_cons.mp ht with rfl | ht
    · exact speechTok_shape a
    rcases List.mem_cons.mp ht with rfl | ht
    · exact ⟨"|unknown|".toList, by decide, by decide⟩
    rcases List.mem_cons.mp ht with rfl | ht
    · exact speechTok_shape b
    · exact absurd ht (List.not_mem_nil t)
  rw [speech_ids_of, speech_tokens, stripGenerationStart_of_noP hnoP, hstream,
    insertCommas_tokens (by simp) hshapes,
    pySplit_joinC ["<|unknown|>".toList, speechTok b] (speechTok a)
      (comma_notMem_speechTok a)
      (by
        intro x hx
        rcases List.mem_cons.mp hx with rfl | hx
        · decide
        rcases List.mem_cons.mp hx with rfl | hx
        · exact comma_notMem_speechTok b
        · simp at hx),
    extract_cons_match (tokenMatches_speechTok a)
      (by rw [tokenBody_speechTok]; exact pyInt_natDigits a),
    extract_cons_skip (show tokenMatches "<|unknown|>".toList = false by decide),
    extract_cons_match (tokenMatches_speechTok b)
      (by rw [tokenBody_speechTok]; exact pyInt_natDigits b),
    show extract_speech_ids [] = some ([], []) from rfl]
  rfl

/-- C8 counterexample: the claim says no returned id is ever negative.
The fragment `<|s_-1|>` passes the guard and `int('-1')` yields `-1`,
which the parser appends. -/
theorem claim_C8_counterexample :
    speech_ids_of "<|s_-1|>".toList = some ([-1], []) ∧ (-1 : Int) < 0 :=
  ⟨by decide, by decide⟩

/-- C8 (amended): every id the parser extracts is an integer, and for
every input stream containing no `'-'` character no element of the
returned list is negative.  (A `'-'` inside a guard-matching fragment can
produce a negative id — see the counterexample.) -/
theorem claim_C8 (s : List Char) (ids : List Int) (unexp : List (List Char))
    (hminus : '-' ∉ s) (h : speech_ids_of s = some (ids, unexp)) :
    ∀ i ∈ ids, 0 ≤ i :=
  extract_nonneg (fun t ht => speech_tokens_minus_free hminus ht) h

/-- C8 witness: the id parsed from `"<|s_25105|>"` is nonnegative. -/
theorem claim_C8_witness : (0 : Int) ≤ 25105 :=
  claim_C8 "<|s_25105|>".toList [25105] [] (by decide) (by decide) 25105 (by decide)

/-- C9 counterexample: the claim says the output path is caller-specified.
The script hard-codes `"gen.wav"`: a caller requesting `"out.wav"` still
gets a write to `"gen.wav"`. -/
theorem claim_C9_counterexample :
    caller_requested_write "out.wav".toList "<|s_7|>".toList =
        some { file := "gen.wav".toList, dataShape := [1], samplerate := 16000 } ∧
      "gen.wav".toList ≠ "out.wav".toList :=
  ⟨by decide, by decide⟩

/-- C9 (amended): whenever parsing succeeds, the script's only write to
persistent storage is a single-channel (one-dimensional data) audio file
at the fixed path `"gen.wav"` and the fixed sample rate 16000 Hz. -/
theorem claim_C9 (s : List Char) (ids : List Int) (unexp : List (List Char))
    (h : speech_ids_of s = some (ids, unexp)) :
    script_writes s =
      [{ file := "gen.wav".toList, dataShape := [ids.length], samplerate := 16000 }] := by
  simp only [script_writes, sf_write_call, decode_code_input, h, Option.map_some']
  rfl

/-- C9 witness: parsing `"<|s_7|>"` succeeds and the sole write goes to
`"gen.wav"` at 16 kHz with one-dimensional data. -/
theorem claim_C9_witness :
    script_writes "<|s_7|>".toList =
      [{ file := "gen.wav".toList, dataShape := [1], samplerate := 16000 }] :=
  claim_C9 "<|s_7|>".toList [7] [] (by decide)

/-- C10: the empty stream splits into the single empty fragment, which is
recorded as exactly one unexpected-token diagnostic while the returned id
list is empty. -/
theorem claim_C10 : speech_ids_of [] = some ([], [[]]) := by decide
